import Mathlib

/-!
Verification development for the pi-search postfix expression engine
(src/main.go).  The Go program is shallowly embedded: the tagged union
`Atom` (Number vs Operator), the front-biased value stack (a `List` whose
head is the stack front), the validity scan, the stack-machine evaluator,
the random generator (randomness modelled as an explicit tape of draws),
the single-step local improver, and the parser.  Go's `float64` numbers
are idealised as `ℚ` (all claims under scrutiny only involve exact
values); where the principal square root matters the evaluator is
instantiated at `ℝ` with `Real.sqrt`.
-/

namespace PiSearch

/-- Operator tags, from the `Operator` constants `ADD`, `DIV`, `MUL`, `SQRT`
in main.go (an inductive replaces the Go string-typed constants; these four
are the only operator values the program constructs). -/
inductive Op where
  | add
  | div
  | mul
  | sqrt
deriving DecidableEq

/-- The `Atom` tagged union from main.go: a `Number` (payload in `α`,
idealising Go `float64`) or an `Operator`. -/
inductive Atom (α : Type) where
  | num (x : α)
  | op (o : Op)
deriving DecidableEq

/-- A value stack, front first: Go's `Stack.items` slice, whose index 0 is
the front (`Pop`/`Peek` act on index 0, `Push` prepends). -/
abbrev Stack (α : Type) : Type := List (Atom α)

/-- Go strings are modelled as lists of characters. -/
abbrev Str : Type := List Char

/-- Models `rand.Intn k` consuming the head of an explicit tape of
pseudorandom draws: the draw is reduced `% k` so that every in-range draw
sequence is represented; the rest of the tape is returned.  An exhausted
tape yields 0. -/
def intn (k : Nat) (t : List Nat) : Nat × List Nat :=
  ((t.headD 0) % k, t.tail)

/-- Models `RandomOperator` from main.go: a uniform draw from the slice
`{ADD, DIV, MUL}` (in that order); `SQRT` is never drawn. -/
def randomOperator (t : List Nat) : Op × List Nat :=
  let (i, t) := intn 3 t
  (match i with
   | 0 => Op.add
   | 1 => Op.div
   | _ => Op.mul, t)

/-- Models `RandomWholeNumber(min, max)` from main.go:
`Number(float64(rand.Intn(max-min) + min))`. -/
def randomWholeNumber (mn mx : Nat) (t : List Nat) : ℚ × List Nat :=
  let (i, t) := intn (mx - mn) t
  (((i + mn : Nat) : ℚ), t)

/-- The valence table of `Stack.Valid` in main.go: binary operators 2,
`SQRT` 1, anything else (a number) 0. -/
def atomValence {α : Type} : Atom α → Int
  | .op .add => 2
  | .op .mul => 2
  | .op .div => 2
  | .op .sqrt => 1
  | .num _ => 0

/-- The loop of `Stack.Valid` in main.go: `size += 1 - valence`, returning
false as soon as `size <= 0`, and finally testing `size == 1`. -/
def validFrom {α : Type} (size : Int) : Stack α → Bool
  | [] => size == 1
  | a :: rest =>
    let size := size + (1 - atomValence a)
    if size ≤ 0 then false else validFrom size rest

/-- `Stack.Valid` from main.go: the balance scan started at 0. -/
def Valid {α : Type} (s : Stack α) : Bool :=
  validFrom 0 s

/-- One iteration of the `Evaluate` loop in main.go acting on the numeric
accumulator stack `nums` (head = top): a number is pushed; a binary
operator pops `x` then `y` and pushes `y OP x`; `SQRT` pops `x` and pushes
`f x` where `f` models `math.Sqrt`.  A pop from an empty accumulator (the
fatal path in Go) is `none`. -/
def evalStep {α : Type} [Add α] [Mul α] [Div α] (f : α → α)
    (nums : List α) : Atom α → Option (List α)
  | .num x => some (x :: nums)
  | .op .add =>
    match nums with
    | x :: y :: r => some ((y + x) :: r)
    | _ => none
  | .op .mul =>
    match nums with
    | x :: y :: r => some ((y * x) :: r)
    | _ => none
  | .op .div =>
    match nums with
    | x :: y :: r => some ((y / x) :: r)
    | _ => none
  | .op .sqrt =>
    match nums with
    | x :: r => some (f x :: r)
    | _ => none

/-- `Evaluate` from main.go: pop the input stack front-to-back feeding the
accumulator, then `Peek` the accumulator (its head).  `none` marks the
fatal empty-pop/peek paths; `f` models `math.Sqrt`.  (The Go code works on
a `Copy` of its argument; lists are immutable here, so the copy is the
identity.) -/
def EvaluateOpt {α : Type} [Add α] [Mul α] [Div α] (f : α → α)
    (s : Stack α) : Option α := do
  let nums ← s.foldlM (evalStep f) []
  nums.head?

/-- Total wrapper for `Evaluate` used by `Improve`: the fatal empty-pop
path (never reached on the valid expressions `Improve` receives, see the
safety theorem for claim C3) is given the junk value 0. -/
def EvaluateD (f : ℚ → ℚ) (s : Stack ℚ) : ℚ :=
  (EvaluateOpt f s).getD 0

/-- `generateRecursive(min, max, length)` from main.go, with the
pseudorandom source threaded as an explicit tape.  Go's `int` length is
restricted to `Nat` (the program only ever passes nonnegative lengths);
`length/2` is Go integer division, i.e. `Nat` division.  Draw order
matches Go evaluation order: in the default case the branch draw first,
then the recursive calls left to right, then the operator draw. -/
def generateRecursive (mn mx : Nat) (length : Nat) (t : List Nat) :
    Stack ℚ × List Nat :=
  match length with
  | 0 => ([], t)
  | 1 =>
    let (q, t) := randomWholeNumber mn mx t
    ([Atom.num q], t)
  | 2 =>
    let (q, t) := randomWholeNumber mn mx t
    ([Atom.num q, Atom.op Op.sqrt], t)
  | 3 =>
    let (a, t) := randomWholeNumber mn mx t
    let (b, t) := randomWholeNumber mn mx t
    let (o, t) := randomOperator t
    ([Atom.num a, Atom.num b, Atom.op o], t)
  | n + 4 =>
    let (b, t) := intn 4 t
    if b = 0 then
      let (l, t) := generateRecursive mn mx (n + 3) t
      (l ++ [Atom.op Op.sqrt], t)
    else
      let (l1, t) := generateRecursive mn mx ((n + 4) / 2) t
      let (l2, t) := generateRecursive mn mx ((n + 4) / 2) t
      let (o, t) := randomOperator t
      (l1 ++ (l2 ++ [Atom.op o]), t)
termination_by length
decreasing_by
  all_goals omega

/-- `Generate(length)` from main.go: `generateRecursive(1, 10, length)`
wrapped in a stack (the wrapping is the identity on the item list). -/
def Generate (length : Nat) (t : List Nat) : Stack ℚ :=
  (generateRecursive 1 10 length t).1

/-- The generation step of one iteration of a `Search` worker loop in
main.go: `Generate(rand.Intn(maxLength-minLength) + minLength)`.  The
`minNum`/`maxNum` parameters of `Search` are carried exactly as in the
source, which never consults them (`Generate` fixes the literal range at
`[1, 10)`). -/
def searchGenerate (minLength maxLength : Nat) (minNum maxNum : Int)
    (t : List Nat) : Stack ℚ :=
  let (len, t) := intn (maxLength - minLength) t
  let _ := minNum
  let _ := maxNum
  Generate (len + minLength) t

/-- The loop body of `Improve` from main.go, made functional: `done` holds
the atoms already scanned (all restored to their input values), `todo` the
rest.  At each number the literal is incremented by 1, the whole
expression re-evaluated, and the mutation kept (returning immediately)
exactly when the new distance to target is strictly smaller. -/
def improveLoop (f : ℚ → ℚ) (target diff val : ℚ)
    (done todo : Stack ℚ) : Bool × ℚ × ℚ × Stack ℚ :=
  match todo with
  | [] => (false, val, diff, done)
  | Atom.op o :: rest => improveLoop f target diff val (done ++ [Atom.op o]) rest
  | Atom.num q :: rest =>
    let cand := done ++ Atom.num (q + 1) :: rest
    let newVal := EvaluateD f cand
    let newDiff := |target - newVal|
    if newDiff < diff then (true, newVal, newDiff, cand)
    else improveLoop f target diff val (done ++ [Atom.num q]) rest

/-- `Improve(expression, target, val, diff)` from main.go, returning
`(improved, newVal, newDiff, expression)`. -/
def Improve (f : ℚ → ℚ) (expression : Stack ℚ) (target val diff : ℚ) :
    Bool × ℚ × ℚ × Stack ℚ :=
  improveLoop f target diff val [] expression

/-- Models `strings.Split(s, " ")`: split at every single space, keeping
empty fields (so consecutive, leading or trailing spaces yield empty
tokens, and the empty string yields one empty token). -/
def splitOnSpace : Str → List Str
  | [] => [[]]
  | c :: rest =>
    if c = ' ' then [] :: splitOnSpace rest
    else
      match splitOnSpace rest with
      | [] => [[c]]
      | tk :: tks => (c :: tk) :: tks

/-- Models `strings.Join(out, " ")`. -/
def joinSpace : List Str → Str
  | [] => []
  | [tk] => tk
  | tk :: tks => tk ++ ' ' :: joinSpace tks

/-- The four operator symbol tokens recognised by `Parse` and produced by
`Stack.String`. -/
def opTokens : List Str :=
  ["+".data, "*".data, "/".data, "√".data]

/-- The token switch inside `Parse` from main.go: the four operator
symbols, otherwise `strconv.ParseFloat` — modelled by the parameter `pf`
(a failing `pf` corresponds to a `ParseFloat` error, and the error value
is the offending token, as in `couldn't parse %q`). -/
def parseAtom (pf : Str → Option ℚ) (tok : Str) : Except Str (Atom ℚ) :=
  if tok = "+".data then Except.ok (Atom.op Op.add)
  else if tok = "*".data then Except.ok (Atom.op Op.mul)
  else if tok = "/".data then Except.ok (Atom.op Op.div)
  else if tok = "√".data then Except.ok (Atom.op Op.sqrt)
  else
    match pf tok with
    | some q => Except.ok (Atom.num q)
    | none => Except.error tok

/-- The token loop of `Parse` from main.go: parse the split tokens in
order, returning the first failure. -/
def parseTokens (pf : Str → Option ℚ) : List Str → Except Str (List (Atom ℚ))
  | [] => Except.ok []
  | tk :: tks =>
    match parseAtom pf tk with
    | Except.error e => Except.error e
    | Except.ok a =>
      match parseTokens pf tks with
      | Except.error e => Except.error e
      | Except.ok as => Except.ok (a :: as)

/-- `Parse(expression)` from main.go: split on spaces, parse each token,
then `Push` (prepend) the parsed atoms in reverse order, so the physical
front-to-back order of the result matches the textual order. -/
def Parse (pf : Str → Option ℚ) (s : Str) : Except Str (Stack ℚ) :=
  match parseTokens pf (splitOnSpace s) with
  | Except.error e => Except.error e
  | Except.ok atoms =>
    Except.ok (atoms.reverse.foldl (fun st a => a :: st) [])

/-- The per-atom rendering of `Stack.String` from main.go: an operator
renders as its symbol, a number via `fmt.Sprint` — modelled by the
parameter `render`. -/
def atomToStr (render : ℚ → Str) : Atom ℚ → Str
  | Atom.op Op.add => "+".data
  | Atom.op Op.mul => "*".data
  | Atom.op Op.div => "/".data
  | Atom.op Op.sqrt => "√".data
  | Atom.num q => render q

/-- `Stack.String` from main.go: render every atom front-to-back and join
with single spaces. -/
def StackString (render : ℚ → Str) (s : Stack ℚ) : Str :=
  joinSpace (s.map (atomToStr render))

/-- The numeric literals of a stack, front-to-back. -/
def numbersOf : Stack ℚ → List ℚ
  | [] => []
  | Atom.num q :: rest => q :: numbersOf rest
  | Atom.op _ :: rest => numbersOf rest

/-- Digit accumulator for `decParse`. -/
def decNatAux : Nat → Str → Option Nat
  | acc, [] => some acc
  | acc, c :: rest =>
    if c.isDigit then decNatAux (10 * acc + (c.toNat - 48)) rest else none

/-- A concrete instance of the `ParseFloat` model used at concrete inputs:
the restriction of `strconv.ParseFloat` to unsigned decimal integer
tokens (on which `ParseFloat` succeeds with the same value); every other
token — in particular the empty token and the operator symbols — fails,
as `ParseFloat` does on the concrete tokens exercised here. -/
def decParse : Str → Option ℚ
  | [] => none
  | c :: rest => (decNatAux 0 (c :: rest)).map (fun n => (n : ℚ))

/-- A concrete instance of the `fmt.Sprint` number-rendering model used at
concrete inputs. -/
def decRender (q : ℚ) : Str :=
  (toString q).data

/-- Modelled from the spec: the per-atom contribution to the running count
of the Validator as the spec words it — each numeric literal `+1`, each
binary operator `-1`, `SQRT` `0`.  Stated independently of the
source-derived `atomValence` so the characterisation theorem for claim C2
compares the two. -/
def specContrib {α : Type} : Atom α → Int
  | .num _ => 1
  | .op .sqrt => 0
  | .op _ => -1

/-- The net contribution of a list of atoms to the validity counter,
in source form (`1 - valence` summed). -/
def contribSum {α : Type} (l : Stack α) : Int :=
  (l.map (fun a => 1 - atomValence a)).sum

/-- The strict-positivity scan: starting from counter `k`, every atom's
updated counter stays strictly positive. -/
def allPos {α : Type} : Int → Stack α → Bool
  | _, [] => true
  | k, a :: rest =>
    let k := k + (1 - atomValence a)
    decide (0 < k) && allPos k rest

theorem contribSum_nil {α : Type} : contribSum ([] : Stack α) = 0 := rfl

theorem contribSum_cons {α : Type} (a : Atom α) (l : Stack α) :
    contribSum (a :: l) = (1 - atomValence a) + contribSum l := by
  simp [contribSum]

theorem contribSum_append {α : Type} (l₁ l₂ : Stack α) :
    contribSum (l₁ ++ l₂) = contribSum l₁ + contribSum l₂ := by
  simp [contribSum]

theorem validFrom_iff {α : Type} (l : Stack α) (k : Int) :
    validFrom k l = true ↔ (allPos k l = true ∧ k + contribSum l = 1) := by
  induction l generalizing k with
  | nil =>
    simp [validFrom, allPos, contribSum]
  | cons a rest ih =>
    simp only [validFrom, allPos, contribSum_cons]
    by_cases h : k + (1 - atomValence a) ≤ 0
    · simp only [if_pos h]
      constructor
      · intro hfalse; exact absurd hfalse (by simp)
      · rintro ⟨hall, -⟩
        simp only [Bool.and_eq_true, decide_eq_true_eq] at hall
        omega
    · simp only [if_neg h, ih, Bool.and_eq_true, decide_eq_true_eq]
      constructor
      · rintro ⟨hall, hsum⟩
        exact ⟨⟨by omega, hall⟩, by omega⟩
      · rintro ⟨⟨-, hall⟩, hsum⟩
        exact ⟨hall, by omega⟩

theorem allPos_append {α : Type} (l₁ l₂ : Stack α) (k : Int) :
    allPos k (l₁ ++ l₂) = (allPos k l₁ && allPos (k + contribSum l₁) l₂) := by
  induction l₁ generalizing k with
  | nil => simp [allPos, contribSum]
  | cons a rest ih =>
    rw [List.cons_append]
    simp only [allPos, contribSum_cons]
    rw [ih, ← add_assoc, Bool.and_assoc]

theorem allPos_mono {α : Type} (l : Stack α) (k j : Int) (hkj : k ≤ j)
    (h : allPos k l = true) : allPos j l = true := by
  induction l generalizing k j with
  | nil => simp [allPos]
  | cons a rest ih =>
    simp only [allPos, Bool.and_eq_true, decide_eq_true_eq] at h ⊢
    exact ⟨by omega, ih _ _ (by omega) h.2⟩

theorem valid_contribSum {α : Type} (l : Stack α) (h : Valid l = true) :
    contribSum l = 1 := by
  have := (validFrom_iff l 0).mp h
  omega

theorem valid_allPos {α : Type} (l : Stack α) (h : Valid l = true) :
    allPos 0 l = true :=
  ((validFrom_iff l 0).mp h).1

theorem valid_append_sqrt {α : Type} (A : Stack α) (hA : Valid A = true) :
    Valid (A ++ [Atom.op Op.sqrt]) = true := by
  rw [Valid, validFrom_iff, allPos_append]
  refine ⟨?_, ?_⟩
  · rw [Bool.and_eq_true]
    refine ⟨valid_allPos A hA, ?_⟩
    rw [valid_contribSum A hA]
    simp [allPos, atomValence]
  · rw [contribSum_append, valid_contribSum A hA]
    simp [contribSum, atomValence]

theorem valid_append_binop {α : Type} (A B : Stack α) (o : Op)
    (ho : o ≠ Op.sqrt) (hA : Valid A = true) (hB : Valid B = true) :
    Valid (A ++ (B ++ [Atom.op o])) = true := by
  have hval : atomValence (Atom.op o : Atom α) = 2 := by
    cases o <;> first | rfl | exact absurd rfl ho
  rw [Valid, validFrom_iff, allPos_append, allPos_append]
  have hcsA := valid_contribSum A hA
  have hcsB := valid_contribSum B hB
  refine ⟨?_, ?_⟩
  · simp only [Bool.and_eq_true]
    refine ⟨valid_allPos A hA, ?_, ?_⟩
    · exact allPos_mono B _ _ (by omega) (valid_allPos B hB)
    · simp [allPos, hval, contribSum_append, hcsA, hcsB]
  · simp [contribSum_append, hcsA, hcsB, contribSum_cons, contribSum_nil, hval]

theorem allPos_iff_take {α : Type} (l : Stack α) (k : Int) :
    allPos k l = true ↔ ∀ j < l.length, 0 < k + contribSum (l.take (j + 1)) := by
  induction l generalizing k with
  | nil => simp [allPos]
  | cons a rest ih =>
    simp only [allPos, Bool.and_eq_true, decide_eq_true_eq, ih, List.length_cons]
    constructor
    · rintro ⟨hpos, hrest⟩ j hj
      match j with
      | 0 => simpa [contribSum_cons, contribSum_nil] using hpos
      | j + 1 =>
        have := hrest j (by omega)
        simp only [List.take_succ_cons, contribSum_cons]
        omega
    · intro h
      refine ⟨?_, fun j hj => ?_⟩
      · have := h 0 (by omega)
        simpa [contribSum_cons, contribSum_nil] using this
      · have := h (j + 1) (by omega)
        simp only [List.take_succ_cons, contribSum_cons] at this
        omega

theorem specContrib_eq {α : Type} (a : Atom α) :
    1 - atomValence a = specContrib a := by
  cases a with
  | num x => rfl
  | op o => cases o <;> rfl

theorem contribSum_eq_spec {α : Type} (l : Stack α) :
    contribSum l = (l.map specContrib).sum := by
  rw [contribSum]
  congr 1
  exact List.map_congr_left (fun a _ => specContrib_eq a)

/-- C2: for every stack of atoms, `Valid` returns true iff the
left-to-right running count (literal `+1`, binary operator `-1`, `SQRT`
`0`, from 0) is strictly positive after every atom and equals exactly 1
after the final atom; in particular `Valid` is false for the one-atom
sequence `+` and for the two-literal sequence `1 2`. -/
theorem valid_iff_running_count :
    (∀ (α : Type) (s : Stack α), Valid s = true ↔
      ((∀ j < s.length, 0 < ((s.take (j + 1)).map specContrib).sum) ∧
        (s.map specContrib).sum = 1)) ∧
    Valid ([Atom.op Op.add] : Stack ℚ) = false ∧
    Valid ([Atom.num (1 : ℚ), Atom.num 2] : Stack ℚ) = false := by
  refine ⟨fun α s => ?_, by decide, by decide⟩
  rw [Valid, validFrom_iff, allPos_iff_take]
  constructor
  · rintro ⟨h1, h2⟩
    refine ⟨fun j hj => ?_, ?_⟩
    · have := h1 j hj
      rw [← contribSum_eq_spec]
      omega
    · rw [← contribSum_eq_spec]
      omega
  · rintro ⟨h1, h2⟩
    refine ⟨fun j hj => ?_, ?_⟩
    · have := h1 j hj
      rw [← contribSum_eq_spec] at this
      omega
    · rw [← contribSum_eq_spec] at h2
      omega

theorem valid_num (q : ℚ) : Valid [Atom.num q] = true := rfl

theorem valid_num_sqrt (q : ℚ) :
    Valid [Atom.num q, Atom.op Op.sqrt] = true := rfl

theorem valid_three (a b : ℚ) (o : Op) (ho : o ≠ Op.sqrt) :
    Valid [Atom.num a, Atom.num b, Atom.op o] = true := by
  cases o
  · rfl
  · rfl
  · rfl
  · exact absurd rfl ho

theorem randomOperator_ne_sqrt (t : List Nat) :
    (randomOperator t).1 ≠ Op.sqrt := by
  simp only [randomOperator, intn]
  rcases hm : (t.headD 0) % 3 with - | m
  · simp
  · rcases m with - | m <;> simp

theorem generate_recursive_valid (mn mx : Nat) :
    ∀ (n : Nat), 1 ≤ n → ∀ (t : List Nat),
      Valid (generateRecursive mn mx n t).1 = true := by
  intro n
  induction n using Nat.strong_induction_on with
  | _ n ih =>
    match n with
    | 0 =>
      intro h
      exact absurd h (by omega)
    | 1 =>
      intro _ t
      simp only [generateRecursive]
      exact valid_num _
    | 2 =>
      intro _ t
      simp only [generateRecursive]
      exact valid_num_sqrt _
    | 3 =>
      intro _ t
      simp only [generateRecursive]
      exact valid_three _ _ _ (randomOperator_ne_sqrt _)
    | (m + 4) =>
      intro _ t
      simp only [generateRecursive]
      by_cases hb : (intn 4 t).1 = 0
      · simp only [hb, if_pos rfl]
        exact valid_append_sqrt _ (ih (m + 3) (by omega) (by omega) _)
      · simp only [if_neg hb]
        exact valid_append_binop _ _ _ (randomOperator_ne_sqrt _)
          (ih ((m + 4) / 2) (by omega) (by omega) _)
          (ih ((m + 4) / 2) (by omega) (by omega) _)

/-- C1: for every requested length at least 1 and every tape of
pseudorandom draws, the stack returned by `Generate` satisfies `Valid`. -/
theorem generate_valid (n : Nat) (hn : 1 ≤ n) (t : List Nat) :
    Valid (Generate n t) = true :=
  generate_recursive_valid 1 10 n hn t

/-- Witness for `generate_valid` at the concrete length 5 and the empty
tape. -/
theorem generate_valid_witness :
    1 ≤ 5 ∧ Valid (Generate 5 []) = true :=
  ⟨by decide, generate_valid 5 (by decide) []⟩

theorem foldlM_evalStep_isSome {α : Type} [Add α] [Mul α] [Div α]
    (f : α → α) (l : Stack α) :
    ∀ (nums : List α), allPos (nums.length : Int) l = true →
      ∃ res : List α, l.foldlM (evalStep f) nums = some res ∧
        (res.length : Int) = nums.length + contribSum l := by
  induction l with
  | nil =>
    intro nums _
    exact ⟨nums, by simp, by simp [contribSum_nil]⟩
  | cons a rest ih =>
    intro nums h
    simp only [allPos, Bool.and_eq_true, decide_eq_true_eq] at h
    obtain ⟨hpos, hrest⟩ := h
    match a with
    | Atom.num x =>
      have hv : atomValence (Atom.num x : Atom α) = 0 := rfl
      rw [hv] at hpos hrest
      obtain ⟨res, hres, hlen⟩ := ih (x :: nums) (by
        simpa [Nat.cast_add, add_comm] using hrest)
      refine ⟨res, ?_, ?_⟩
      · rw [List.foldlM_cons]
        simpa [evalStep] using hres
      · rw [hlen, contribSum_cons, hv]
        simp only [List.length_cons]
        push_cast
        omega
    | Atom.op Op.sqrt =>
      have hv : atomValence (Atom.op Op.sqrt : Atom α) = 1 := rfl
      rw [hv] at hpos hrest
      match nums with
      | [] => simp at hpos
      | x :: r =>
        obtain ⟨res, hres, hlen⟩ := ih (f x :: r) (by
          simpa using hrest)
        refine ⟨res, ?_, ?_⟩
        · rw [List.foldlM_cons]
          simpa [evalStep] using hres
        · rw [hlen, contribSum_cons, hv]
          simp only [List.length_cons]
          push_cast
          omega
    | Atom.op Op.add =>
      have hv : atomValence (Atom.op Op.add : Atom α) = 2 := rfl
      rw [hv] at hpos hrest
      match nums with
      | [] => simp at hpos
      | [x] => simp at hpos
      | x :: y :: r =>
        obtain ⟨res, hres, hlen⟩ := ih ((y + x) :: r) (by
          have : ((((y + x) :: r).length : Nat) : Int) =
              ((x :: y :: r).length : Int) + (1 - 2) := by
            simp only [List.length_cons]
            push_cast
            omega
          rw [this]
          exact hrest)
        refine ⟨res, ?_, ?_⟩
        · rw [List.foldlM_cons]
          simpa [evalStep] using hres
        · rw [hlen, contribSum_cons, hv]
          simp only [List.length_cons]
          push_cast
          omega
    | Atom.op Op.mul =>
      have hv : atomValence (Atom.op Op.mul : Atom α) = 2 := rfl
      rw [hv] at hpos hrest
      match nums with
      | [] => simp at hpos
      | [x] => simp at hpos
      | x :: y :: r =>
        obtain ⟨res, hres, hlen⟩ := ih ((y * x) :: r) (by
          have : ((((y * x) :: r).length : Nat) : Int) =
              ((x :: y :: r).length : Int) + (1 - 2) := by
            simp only [List.length_cons]
            push_cast
            omega
          rw [this]
          exact hrest)
        refine ⟨res, ?_, ?_⟩
        · rw [List.foldlM_cons]
          simpa [evalStep] using hres
        · rw [hlen, contribSum_cons, hv]
          simp only [List.length_cons]
          push_cast
          omega
    | Atom.op Op.div =>
      have hv : atomValence (Atom.op Op.div : Atom α) = 2 := rfl
      rw [hv] at hpos hrest
      match nums with
      | [] => simp at hpos
      | [x] => simp at hpos
      | x :: y :: r =>
        obtain ⟨res, hres, hlen⟩ := ih ((y / x) :: r) (by
          have : ((((y / x) :: r).length : Nat) : Int) =
              ((x :: y :: r).length : Int) + (1 - 2) := by
            simp only [List.length_cons]
            push_cast
            omega
          rw [this]
          exact hrest)
        refine ⟨res, ?_, ?_⟩
        · rw [List.foldlM_cons]
          simpa [evalStep] using hres
        · rw [hlen, contribSum_cons, hv]
          simp only [List.length_cons]
          push_cast
          omega

/-- C3: on every stack satisfying `Valid`, `Evaluate` runs to completion
without ever popping or peeking an empty accumulator: the `Option`-typed
evaluator (whose `none` is exactly the fatal empty-pop/peek path of the Go
code) returns a value. -/
theorem evaluate_total_on_valid {α : Type} [Add α] [Mul α] [Div α]
    (f : α → α) (s : Stack α) (h : Valid s = true) :
    (EvaluateOpt f s).isSome = true := by
  have hsum := valid_contribSum s h
  have hpos : allPos (([] : List α).length : Int) s = true := by
    simpa using valid_allPos s h
  obtain ⟨res, hres, hlen⟩ := foldlM_evalStep_isSome f s [] hpos
  have hres1 : res.length = 1 := by
    simp only [List.length_nil, Nat.cast_zero, zero_add, hsum] at hlen
    exact_mod_cast hlen
  obtain ⟨v, rfl⟩ := List.length_eq_one.mp hres1
  simp [EvaluateOpt, hres]

/-- Witness for `evaluate_total_on_valid` at the one-literal stack `1`. -/
theorem evaluate_total_on_valid_witness :
    Valid [Atom.num (1 : ℚ)] = true ∧
      (EvaluateOpt id [Atom.num (1 : ℚ)]).isSome = true :=
  ⟨by decide, evaluate_total_on_valid id [Atom.num (1 : ℚ)] (by decide)⟩

/-- C4: `Evaluate` implements postfix stack-machine semantics: every
binary operator pops the right operand `x` first and the left operand `y`
second and pushes `y OP x` (so `/` computes `y / x`); `SQRT` pops one
operand and pushes its principal square root (the evaluator instantiated
at `ℝ` with `Real.sqrt`, the model of `math.Sqrt`); and `Evaluate` applied
to the parse of `1 2 + 3 4 / * 10 +` returns exactly 12.25. -/
theorem evaluate_step_semantics :
    (∀ (α : Type) [Add α] [Mul α] [Div α] (f : α → α) (x y : α) (r : List α),
      evalStep f (x :: y :: r) (Atom.op Op.add) = some ((y + x) :: r) ∧
      evalStep f (x :: y :: r) (Atom.op Op.mul) = some ((y * x) :: r) ∧
      evalStep f (x :: y :: r) (Atom.op Op.div) = some ((y / x) :: r)) ∧
    (∀ (x : ℝ) (r : List ℝ),
      evalStep Real.sqrt (x :: r) (Atom.op Op.sqrt) = some (Real.sqrt x :: r)) ∧
    (∀ (f : ℚ → ℚ),
      (Parse decParse "1 2 + 3 4 / * 10 +".data).map (EvaluateOpt f) =
        Except.ok (some (12.25 : ℚ))) := by
  refine ⟨?_, ?_, ?_⟩
  · intro α _ _ _ f x y r
    exact ⟨rfl, rfl, rfl⟩
  · intro x r
    rfl
  · intro f
    have hp : Parse decParse "1 2 + 3 4 / * 10 +".data = Except.ok
        [Atom.num 1, Atom.num 2, Atom.op Op.add, Atom.num 3, Atom.num 4,
         Atom.op Op.div, Atom.op Op.mul, Atom.num 10, Atom.op Op.add] := rfl
    rw [hp]
    simp only [Except.map, EvaluateOpt, List.foldlM, evalStep]
    norm_num

theorem set_append_length {β : Type} (l : List β) (a b : β) (r : List β) :
    (l ++ a :: r).set l.length b = l ++ b :: r := by
  induction l with
  | nil => rfl
  | cons c l ih => simp

theorem getElem?_append_length {β : Type} (l : List β) (a : β) (r : List β) :
    (l ++ a :: r)[l.length]? = some a := by
  induction l with
  | nil => simp
  | cons c l ih => simpa using ih

theorem improveLoop_spec (f : ℚ → ℚ) (target diff val : ℚ) :
    ∀ (todo done : Stack ℚ) (b : Bool) (nv nd : ℚ) (ne : Stack ℚ),
      improveLoop f target diff val done todo = (b, nv, nd, ne) →
      (b = false ∧ nv = val ∧ nd = diff ∧ ne = done ++ todo) ∨
      (b = true ∧ nd < diff ∧ nd = |target - nv| ∧
        ∃ i q, done.length ≤ i ∧ (done ++ todo)[i]? = some (Atom.num q) ∧
          ne = (done ++ todo).set i (Atom.num (q + 1)) ∧
          nv = EvaluateD f ne) := by
  intro todo
  induction todo with
  | nil =>
    intro done b nv nd ne h
    simp only [improveLoop, Prod.mk.injEq] at h
    obtain ⟨hb, hnv, hnd, hne⟩ := h
    exact Or.inl ⟨hb.symm, hnv.symm, hnd.symm, by rw [← hne, List.append_nil]⟩
  | cons a rest ih =>
    intro done b nv nd ne h
    match a with
    | Atom.op o =>
      simp only [improveLoop] at h
      rcases ih (done ++ [Atom.op o]) b nv nd ne h with
        ⟨hb, hnv, hnd, hne⟩ | ⟨hb, hlt, habs, i, q, hi, hget, hset, hnv⟩
      · refine Or.inl ⟨hb, hnv, hnd, ?_⟩
        rw [hne, List.append_assoc]
        rfl
      · refine Or.inr ⟨hb, hlt, habs, i, q, ?_, ?_, ?_, hnv⟩
        · have : done.length ≤ (done ++ [Atom.op o]).length := by
            simp
          omega
        · rw [← hget, List.append_assoc]
          rfl
        · rw [hset, List.append_assoc]
          rfl
    | Atom.num q =>
      simp only [improveLoop] at h
      by_cases hlt : |target - EvaluateD f (done ++ Atom.num (q + 1) :: rest)| < diff
      · rw [if_pos hlt] at h
        simp only [Prod.mk.injEq] at h
        obtain ⟨hb, hnv, hnd, hne⟩ := h
        refine Or.inr ⟨hb.symm, ?_, ?_, done.length, q, le_refl _,
          getElem?_append_length done (Atom.num q) rest, ?_, ?_⟩
        · rw [← hnd]
          exact hlt
        · rw [← hnd, ← hnv]
        · rw [← hne, set_append_length]
        · rw [← hne, ← hnv]
      · rw [if_neg hlt] at h
        rcases ih (done ++ [Atom.num q]) b nv nd ne h with
          ⟨hb, hnv, hnd, hne⟩ | ⟨hb, hlt2, habs, i, qq, hi, hget, hset, hnv⟩
        · refine Or.inl ⟨hb, hnv, hnd, ?_⟩
          rw [hne, List.append_assoc]
          rfl
        · refine Or.inr ⟨hb, hlt2, habs, i, qq, ?_, ?_, ?_, hnv⟩
          · have : done.length ≤ (done ++ [Atom.num q]).length := by
              simp
            omega
          · rw [← hget, List.append_assoc]
            rfl
          · rw [hset, List.append_assoc]
            rfl

/-- C7: for a valid expression with consistent `val` and `diff`, `Improve`
never returns a `newDiff` greater than the input `diff`; on
`improved = true` the returned `newDiff` is strictly smaller and the
returned expression is the input with exactly one numeric literal replaced
by that literal plus 1; on `improved = false` the expression, value and
diff come back unchanged. -/
theorem improve_spec (f : ℚ → ℚ) (expr : Stack ℚ) (target val diff : ℚ)
    (hvalid : Valid expr = true) (hval : val = EvaluateD f expr)
    (hdiff : diff = |target - val|) (b : Bool) (nv nd : ℚ) (ne : Stack ℚ)
    (h : Improve f expr target val diff = (b, nv, nd, ne)) :
    nd ≤ diff ∧
    (b = true → nd < diff ∧
      ∃ i q, expr[i]? = some (Atom.num q) ∧
        ne = expr.set i (Atom.num (q + 1))) ∧
    (b = false → nv = val ∧ nd = diff ∧ ne = expr) := by
  rcases improveLoop_spec f target diff val expr [] b nv nd ne h with
    ⟨hb, hnv, hnd, hne⟩ | ⟨hb, hlt, habs, i, q, hi, hget, hset, hnv⟩
  · subst hb
    refine ⟨le_of_eq hnd, ?_, ?_⟩
    · intro hcontra
      exact absurd hcontra (by simp)
    · intro _
      exact ⟨hnv, hnd, by simpa using hne⟩
  · subst hb
    refine ⟨le_of_lt hlt, ?_, ?_⟩
    · intro _
      exact ⟨hlt, i, q, by simpa using hget, by simpa using hset⟩
    · intro hcontra
      exact absurd hcontra (by simp)

/-- Witness for `improve_spec` at the expression `1 2 +`, target 10,
value 3, diff 7: the first literal is incremented to 2, giving value 4 and
diff 6. -/
theorem improve_spec_witness :
    Valid [Atom.num (1 : ℚ), Atom.num 2, Atom.op Op.add] = true ∧
    (3 : ℚ) = EvaluateD id [Atom.num (1 : ℚ), Atom.num 2, Atom.op Op.add] ∧
    (7 : ℚ) = |(10 : ℚ) - 3| ∧
    Improve id [Atom.num (1 : ℚ), Atom.num 2, Atom.op Op.add] 10 3 7 =
      (true, 4, 6, [Atom.num (2 : ℚ), Atom.num 2, Atom.op Op.add]) ∧
    ((6 : ℚ) ≤ 7 ∧
      (true = true → (6 : ℚ) < 7 ∧
        ∃ i q, [Atom.num (1 : ℚ), Atom.num 2, Atom.op Op.add][i]? =
            some (Atom.num q) ∧
          [Atom.num (2 : ℚ), Atom.num 2, Atom.op Op.add] =
            ([Atom.num (1 : ℚ), Atom.num 2, Atom.op Op.add]).set i
              (Atom.num (q + 1))) ∧
      (true = false → (4 : ℚ) = 3 ∧ (6 : ℚ) = 7 ∧
        [Atom.num (2 : ℚ), Atom.num 2, Atom.op Op.add] =
          [Atom.num (1 : ℚ), Atom.num 2, Atom.op Op.add])) := by
  have h1 : Valid [Atom.num (1 : ℚ), Atom.num 2, Atom.op Op.add] = true := by
    decide
  have h2 : (3 : ℚ) = EvaluateD id [Atom.num (1 : ℚ), Atom.num 2, Atom.op Op.add] := by
    simp only [EvaluateD, EvaluateOpt, List.foldlM, evalStep]
    norm_num
  have h3 : (7 : ℚ) = |(10 : ℚ) - 3| := by
    norm_num
  have h4 : Improve id [Atom.num (1 : ℚ), Atom.num 2, Atom.op Op.add] 10 3 7 =
      (true, 4, 6, [Atom.num (2 : ℚ), Atom.num 2, Atom.op Op.add]) := by
    simp only [Improve, improveLoop, EvaluateD, EvaluateOpt, List.foldlM, evalStep]
    norm_num
  exact ⟨h1, h2, h3, h4,
    improve_spec id [Atom.num (1 : ℚ), Atom.num 2, Atom.op Op.add] 10 3 7
      h1 h2 h3 true 4 6 [Atom.num (2 : ℚ), Atom.num 2, Atom.op Op.add] h4⟩

theorem generateRecursive_succ4 (mn mx m : Nat) (t : List Nat) :
    generateRecursive mn mx (m + 4) t =
      if (t.headD 0) % 4 = 0 then
        ((generateRecursive mn mx (m + 3) t.tail).1 ++ [Atom.op Op.sqrt],
         (generateRecursive mn mx (m + 3) t.tail).2)
      else
        ((generateRecursive mn mx ((m + 4) / 2) t.tail).1 ++
          ((generateRecursive mn mx ((m + 4) / 2)
              (generateRecursive mn mx ((m + 4) / 2) t.tail).2).1 ++
            [Atom.op (randomOperator
              (generateRecursive mn mx ((m + 4) / 2)
                (generateRecursive mn mx ((m + 4) / 2) t.tail).2).2).1]),
         (randomOperator
            (generateRecursive mn mx ((m + 4) / 2)
              (generateRecursive mn mx ((m + 4) / 2) t.tail).2).2).2) := by
  simp only [generateRecursive, intn]

theorem generate_recursive_length (mn mx : Nat) :
    ∀ (n : Nat) (t : List Nat), n ≤ (generateRecursive mn mx n t).1.length := by
  intro n
  induction n using Nat.strong_induction_on with
  | _ n ih =>
    match n with
    | 0 => intro t; simp [generateRecursive]
    | 1 => intro t; simp [generateRecursive, randomWholeNumber, intn]
    | 2 => intro t; simp [generateRecursive, randomWholeNumber, intn]
    | 3 =>
      intro t
      simp [generateRecursive, randomWholeNumber, randomOperator, intn]
    | m + 4 =>
      intro t
      rw [generateRecursive_succ4]
      by_cases hb : (t.headD 0) % 4 = 0
      · rw [if_pos hb]
        have h1 := ih (m + 3) (by omega) t.tail
        simp only [List.length_append, List.length_cons, List.length_nil]
        omega
      · rw [if_neg hb]
        have h1 := ih ((m + 4) / 2) (by omega) t.tail
        have h2 := ih ((m + 4) / 2) (by omega)
          (generateRecursive mn mx ((m + 4) / 2) t.tail).2
        simp only [List.length_append, List.length_cons, List.length_nil]
        omega

/-- C9 counterexample: the claim that some sequence of draws makes a
request for length 5 come back with fewer than 5 tokens is false — the
generator never undershoots the request. -/
theorem generate_length_no_undershoot :
    ¬ ∃ t : List Nat, (Generate 5 t).length < 5 := by
  rintro ⟨t, ht⟩
  have h := generate_recursive_length 1 10 5 t
  rw [Generate] at ht
  omega

/-- C9 (amended): the token count of the expression returned by `Generate`
may differ from the requested length, but only by exceeding it: for some
sequence of draws, requesting length 5 yields an expression with more than
5 tokens (here 6), and no sequence of draws yields fewer than 5. -/
theorem generate_length_five_can_exceed :
    (Generate 5 [0, 1, 0, 0, 0]).length = 6 ∧
    ∀ t : List Nat, 5 ≤ (Generate 5 t).length := by
  constructor
  · simp [Generate, generateRecursive, intn, randomWholeNumber, randomOperator]
  · intro t
    rw [Generate]
    exact generate_recursive_length 1 10 5 t

/-- C10 counterexample: at the even request 8 > 3 there is a draw sequence
taking the binary-split branch (first draw 1, so 1 % 4 ≠ 0) whose result
has 11 atoms, not 8 + 1 = 9. -/
theorem generate_split_not_exact :
    ([1, 1, 0, 0, 0, 1, 0, 0, 0, 0] : List Nat).headD 0 % 4 ≠ 0 ∧
    (Generate 8 [1, 1, 0, 0, 0, 1, 0, 0, 0, 0]).length = 11 ∧
    (Generate 8 [1, 1, 0, 0, 0, 1, 0, 0, 0, 0]).length ≠ 8 + 1 := by
  refine ⟨by decide, ?_, ?_⟩ <;>
    simp [Generate, generateRecursive, intn, randomWholeNumber, randomOperator]

/-- C10 (amended): for every requested length n ≥ 1 and every draw
sequence the expression returned by `Generate` has at least n atoms, and
the count can exceed the request: whenever the binary-split branch is
taken at an even n > 3 the result has at least n + 1 atoms. -/
theorem generate_length_lower_bound :
    (∀ (n : Nat), 1 ≤ n → ∀ t : List Nat, n ≤ (Generate n t).length) ∧
    (∀ (n : Nat) (t : List Nat), 3 < n → n % 2 = 0 → (t.headD 0) % 4 ≠ 0 →
      n + 1 ≤ (Generate n t).length) := by
  constructor
  · intro n _ t
    rw [Generate]
    exact generate_recursive_length 1 10 n t
  · intro n t h3 heven hb
    obtain ⟨m, rfl⟩ : ∃ m, n = m + 4 := ⟨n - 4, by omega⟩
    rw [Generate, generateRecursive_succ4, if_neg hb]
    have h1 := generate_recursive_length 1 10 ((m + 4) / 2) t.tail
    have h2 := generate_recursive_length 1 10 ((m + 4) / 2)
      (generateRecursive 1 10 ((m + 4) / 2) t.tail).2
    simp only [List.length_append, List.length_cons, List.length_nil]
    omega

/-- Witness for `generate_length_lower_bound` at n = 4 with a tape whose
first draw selects the binary-split branch. -/
theorem generate_length_lower_bound_witness :
    (1 ≤ 4 ∧ 4 ≤ (Generate 4 []).length) ∧
    (3 < 4 ∧ 4 % 2 = 0 ∧ ([1] : List Nat).headD 0 % 4 ≠ 0 ∧
      4 + 1 ≤ (Generate 4 [1]).length) :=
  ⟨⟨by decide, generate_length_lower_bound.1 4 (by decide) []⟩,
   ⟨by decide, by decide, by decide,
    generate_length_lower_bound.2 4 [1] (by decide) (by decide) (by decide)⟩⟩

theorem randlit_bounds (mn mx d : Nat) (hmn : mn < mx) :
    mn ≤ d % (mx - mn) + mn ∧ d % (mx - mn) + mn < mx := by
  have h := Nat.mod_lt d (show 0 < mx - mn by omega)
  omega

theorem generate_recursive_literals (mn mx : Nat) (hmn : mn < mx) :
    ∀ (n : Nat) (t : List Nat) (q : ℚ),
      Atom.num q ∈ (generateRecursive mn mx n t).1 →
      ∃ k : Nat, mn ≤ k ∧ k < mx ∧ q = k := by
  intro n
  induction n using Nat.strong_induction_on with
  | _ n ih =>
    match n with
    | 0 =>
      intro t q hq
      simp [generateRecursive] at hq
    | 1 =>
      intro t q hq
      simp only [generateRecursive, randomWholeNumber, intn,
        List.mem_singleton, Atom.num.injEq] at hq
      exact ⟨(t.headD 0) % (mx - mn) + mn, (randlit_bounds mn mx _ hmn).1,
        (randlit_bounds mn mx _ hmn).2, hq⟩
    | 2 =>
      intro t q hq
      simp only [generateRecursive, randomWholeNumber, intn,
        List.mem_cons, List.mem_singleton, Atom.num.injEq] at hq
      rcases hq with hq | hq
      · exact ⟨(t.headD 0) % (mx - mn) + mn, (randlit_bounds mn mx _ hmn).1,
          (randlit_bounds mn mx _ hmn).2, hq⟩
      · exact absurd hq (by simp)
    | 3 =>
      intro t q hq
      simp only [generateRecursive, randomWholeNumber, randomOperator, intn,
        List.mem_cons, List.mem_singleton, Atom.num.injEq] at hq
      rcases hq with hq | hq | hq
      · exact ⟨(t.headD 0) % (mx - mn) + mn, (randlit_bounds mn mx _ hmn).1,
          (randlit_bounds mn mx _ hmn).2, hq⟩
      · exact ⟨(t.tail.headD 0) % (mx - mn) + mn, (randlit_bounds mn mx _ hmn).1,
          (randlit_bounds mn mx _ hmn).2, hq⟩
      · exact absurd hq (by simp)
    | m + 4 =>
      intro t q hq
      rw [generateRecursive_succ4] at hq
      by_cases hb : (t.headD 0) % 4 = 0
      · rw [if_pos hb] at hq
        simp only [List.mem_append, List.mem_singleton] at hq
        rcases hq with hq | hq
        · exact ih (m + 3) (by omega) _ q hq
        · exact absurd hq (by simp)
      · rw [if_neg hb] at hq
        simp only [List.mem_append, List.mem_singleton] at hq
        rcases hq with hq | hq | hq
        · exact ih ((m + 4) / 2) (by omega) _ q hq
        · exact ih ((m + 4) / 2) (by omega) _ q hq
        · exact absurd hq (by simp)

/-- C5 counterexample: with `minNum = 5`, `maxNum = 6` a worker-loop
iteration generates the literal 1, which does not lie in `[5, 6)` — the
`Search` arguments `minNum`/`maxNum` do not bound the literals. -/
theorem search_literal_range_counterexample :
    Atom.num (1 : ℚ) ∈ searchGenerate 1 2 5 6 [0, 0] ∧ ¬ ((5 : ℚ) ≤ 1) := by
  constructor
  · simp [searchGenerate, Generate, generateRecursive, randomWholeNumber, intn]
  · norm_num

/-- C5 (amended): for all arguments of `Search`, every numeric literal in
an expression generated inside the worker loop is an integer-valued number
drawn from the fixed range `[1, 10)`; the `minNum`/`maxNum` arguments play
no role in generation. -/
theorem search_literal_range (minLength maxLength : Nat)
    (minNum maxNum : Int) (t : List Nat) (q : ℚ)
    (hq : Atom.num q ∈ searchGenerate minLength maxLength minNum maxNum t) :
    ∃ k : Nat, 1 ≤ k ∧ k < 10 ∧ q = k := by
  simp only [searchGenerate, Generate, intn] at hq
  exact generate_recursive_literals 1 10 (by omega) _ _ q hq

/-- Witness for `search_literal_range` at `minLength = 1`, `maxLength = 2`,
`minNum = 5`, `maxNum = 6` and the all-zero tape, which generates the
single literal 1. -/
theorem search_literal_range_witness :
    Atom.num (1 : ℚ) ∈ searchGenerate 1 2 5 6 [0, 0] ∧
    ∃ k : Nat, 1 ≤ k ∧ k < 10 ∧ (1 : ℚ) = k := by
  have hm : Atom.num (1 : ℚ) ∈ searchGenerate 1 2 5 6 [0, 0] := by
    simp [searchGenerate, Generate, generateRecursive, randomWholeNumber, intn]
  exact ⟨hm, search_literal_range 1 2 5 6 [0, 0] 1 hm⟩

theorem splitOnSpace_ne_nil : ∀ (s : Str), splitOnSpace s ≠ [] := by
  intro s
  match s with
  | [] => simp [splitOnSpace]
  | c :: rest =>
    simp only [splitOnSpace]
    by_cases h : c = ' '
    · simp [h]
    · rw [if_neg h]
      match hs : splitOnSpace rest with
      | [] => simp
      | tk :: tks => simp

theorem splitOnSpace_append (a b : Str) :
    splitOnSpace (a ++ ' ' :: b) = splitOnSpace a ++ splitOnSpace b := by
  induction a with
  | nil => simp [splitOnSpace]
  | cons c r ih =>
    by_cases h : c = ' '
    · subst h
      rw [List.cons_append]
      simp only [splitOnSpace, if_pos rfl, ih]
      rfl
    · rw [List.cons_append]
      simp only [splitOnSpace, if_neg h, ih]
      match hs : splitOnSpace r with
      | [] => exact absurd hs (splitOnSpace_ne_nil r)
      | tk :: tks => simp

theorem splitOnSpace_no_space : ∀ (tk : Str), ' ' ∉ tk →
    splitOnSpace tk = [tk] := by
  intro tk
  induction tk with
  | nil => intro _; rfl
  | cons c r ih =>
    intro h
    simp only [List.mem_cons, not_or] at h
    have hc : ¬ (c = ' ') := fun hh => h.1 hh.symm
    simp only [splitOnSpace, ih h.2, if_neg hc]

theorem split_join : ∀ (toks : List Str), toks ≠ [] →
    (∀ tk ∈ toks, ' ' ∉ tk) → splitOnSpace (joinSpace toks) = toks := by
  intro toks
  induction toks with
  | nil => intro h; exact absurd rfl h
  | cons tk tks ih =>
    intro _ hfree
    cases tks with
    | nil =>
      simp only [joinSpace]
      exact splitOnSpace_no_space tk (hfree tk (by simp))
    | cons tk2 tks2 =>
      have hj : joinSpace (tk :: tk2 :: tks2) = tk ++ ' ' :: joinSpace (tk2 :: tks2) := rfl
      rw [hj, splitOnSpace_append, splitOnSpace_no_space tk (hfree tk (by simp)),
        ih (by simp) (fun x hx => hfree x (List.mem_cons_of_mem tk hx))]
      rfl

theorem foldl_push_eq_reverse_append {β : Type} :
    ∀ (l acc : List β), l.foldl (fun st a => a :: st) acc = l.reverse ++ acc := by
  intro l
  induction l with
  | nil => intro acc; simp
  | cons a r ih =>
    intro acc
    simp only [List.foldl_cons, List.reverse_cons, ih, List.append_assoc,
      List.singleton_append]

theorem parse_push_order (atoms : List (Atom ℚ)) :
    atoms.reverse.foldl (fun st a => a :: st) ([] : Stack ℚ) = atoms := by
  rw [foldl_push_eq_reverse_append, List.append_nil, List.reverse_reverse]

theorem parseAtom_error_iff (pf : Str → Option ℚ) (tk e : Str) :
    parseAtom pf tk = Except.error e ↔
      e = tk ∧ tk ∉ opTokens ∧ pf tk = none := by
  simp only [parseAtom, opTokens, List.mem_cons, List.mem_singleton, not_or]
  by_cases h1 : tk = "+".data
  · simp [h1]
  · rw [if_neg h1]
    by_cases h2 : tk = "*".data
    · simp [h1, h2]
    · rw [if_neg h2]
      by_cases h3 : tk = "/".data
      · simp [h1, h2, h3]
      · rw [if_neg h3]
        by_cases h4 : tk = "√".data
        · simp [h1, h2, h3, h4]
        · rw [if_neg h4]
          cases hpf : pf tk with
          | some q => simp [h1, h2, h3, h4, hpf]
          | none => simp [h1, h2, h3, h4, hpf, eq_comm]

theorem Parse_ok_iff (pf : Str → Option ℚ) (s : Str) (atoms : Stack ℚ) :
    Parse pf s = Except.ok atoms ↔
      parseTokens pf (splitOnSpace s) = Except.ok atoms := by
  unfold Parse
  cases h : parseTokens pf (splitOnSpace s) with
  | error e => simp
  | ok as => simp [parse_push_order]

theorem Parse_error_iff (pf : Str → Option ℚ) (s : Str) (e : Str) :
    Parse pf s = Except.error e ↔
      parseTokens pf (splitOnSpace s) = Except.error e := by
  unfold Parse
  cases h : parseTokens pf (splitOnSpace s) with
  | error e2 => simp
  | ok as => simp

theorem parseTokens_error_sound (pf : Str → Option ℚ) :
    ∀ (toks : List Str) (e : Str), parseTokens pf toks = Except.error e →
      e ∈ toks ∧ e ∉ opTokens ∧ pf e = none := by
  intro toks
  induction toks with
  | nil =>
    intro e h
    simp [parseTokens] at h
  | cons tk rest ih =>
    intro e h
    simp only [parseTokens] at h
    cases ha : parseAtom pf tk with
    | error e2 =>
      rw [ha] at h
      simp only [Except.error.injEq] at h
      subst h
      obtain ⟨he, hop, hpf⟩ := (parseAtom_error_iff pf tk e2).mp ha
      subst he
      exact ⟨by simp, hop, hpf⟩
    | ok a =>
      rw [ha] at h
      cases hr : parseTokens pf rest with
      | error e3 =>
        rw [hr] at h
        simp only [Except.error.injEq] at h
        subst h
        obtain ⟨hm, hop, hpf⟩ := ih e3 hr
        exact ⟨List.mem_cons_of_mem tk hm, hop, hpf⟩
      | ok as =>
        rw [hr] at h
        simp at h

theorem parseTokens_error_complete (pf : Str → Option ℚ) :
    ∀ (toks : List Str), (∃ tk ∈ toks, tk ∉ opTokens ∧ pf tk = none) →
      ∃ e, parseTokens pf toks = Except.error e := by
  intro toks
  induction toks with
  | nil =>
    rintro ⟨tk, hmem, -⟩
    simp at hmem
  | cons tk rest ih =>
    rintro ⟨tk2, hmem, hop, hpf⟩
    cases ha : parseAtom pf tk with
    | error e => exact ⟨e, by simp only [parseTokens, ha]⟩
    | ok a =>
      rcases List.mem_cons.mp hmem with rfl | hmem2
      · have : parseAtom pf tk2 = Except.error tk2 :=
          (parseAtom_error_iff pf tk2 tk2).mpr ⟨rfl, hop, hpf⟩
        rw [this] at ha
        exact absurd ha (by simp)
      · obtain ⟨e, he⟩ := ih ⟨tk2, hmem2, hop, hpf⟩
        exact ⟨e, by simp only [parseTokens, ha, he]⟩

theorem empty_token_of_leading (r : Str) : [] ∈ splitOnSpace (' ' :: r) := by
  simp [splitOnSpace]

theorem empty_token_of_trailing (a : Str) : [] ∈ splitOnSpace (a ++ [' ']) := by
  have h : a ++ [' '] = a ++ ' ' :: ([] : Str) := rfl
  rw [h, splitOnSpace_append]
  simp [splitOnSpace]

theorem empty_token_of_double (a b : Str) :
    [] ∈ splitOnSpace (a ++ ' ' :: ' ' :: b) := by
  rw [splitOnSpace_append]
  simp [splitOnSpace]

/-- C8: with `pf` the model of `strconv.ParseFloat` (which fails on the
empty token), `Parse` returns an error iff some token of the input (split
on single spaces) is neither an operator symbol nor a parseable number;
the error carries such an offending token; any input with a leading space,
a trailing space or two consecutive spaces yields an error (its empty
token fails numeric parsing); and on success the stack equals the
in-order parses of the tokens, front-to-back. -/
theorem parse_error_characterization (pf : Str → Option ℚ) (s : Str)
    (hpf : pf [] = none) :
    ((∃ e, Parse pf s = Except.error e) ↔
      ∃ tk ∈ splitOnSpace s, tk ∉ opTokens ∧ pf tk = none) ∧
    (∀ e, Parse pf s = Except.error e →
      e ∈ splitOnSpace s ∧ e ∉ opTokens ∧ pf e = none) ∧
    (((∃ r, s = ' ' :: r) ∨ (∃ a, s = a ++ [' ']) ∨
        (∃ a b, s = a ++ ' ' :: ' ' :: b)) →
      ∃ e, Parse pf s = Except.error e) ∧
    (∀ atoms, Parse pf s = Except.ok atoms →
      parseTokens pf (splitOnSpace s) = Except.ok atoms) := by
  have hiff : (∃ e, Parse pf s = Except.error e) ↔
      ∃ tk ∈ splitOnSpace s, tk ∉ opTokens ∧ pf tk = none := by
    constructor
    · rintro ⟨e, he⟩
      obtain ⟨hm, hop, hp⟩ :=
        parseTokens_error_sound pf (splitOnSpace s) e ((Parse_error_iff pf s e).mp he)
      exact ⟨e, hm, hop, hp⟩
    · intro hbad
      obtain ⟨e, he⟩ := parseTokens_error_complete pf (splitOnSpace s) hbad
      exact ⟨e, (Parse_error_iff pf s e).mpr he⟩
  refine ⟨hiff, ?_, ?_, ?_⟩
  · intro e he
    exact parseTokens_error_sound pf (splitOnSpace s) e ((Parse_error_iff pf s e).mp he)
  · intro hshape
    apply hiff.mpr
    refine ⟨[], ?_, by decide, hpf⟩
    rcases hshape with ⟨r, rfl⟩ | ⟨a, rfl⟩ | ⟨a, b, rfl⟩
    · exact empty_token_of_leading r
    · exact empty_token_of_trailing a
    · exact empty_token_of_double a b
  · intro atoms h
    exact (Parse_ok_iff pf s atoms).mp h

/-- Witness for `parse_error_characterization` at the concrete parser
model `decParse` and the input `" 1"` (leading space). -/
theorem parse_error_characterization_witness :
    decParse [] = none ∧
    (((∃ e, Parse decParse " 1".data = Except.error e) ↔
      ∃ tk ∈ splitOnSpace " 1".data, tk ∉ opTokens ∧ decParse tk = none) ∧
    (∀ e, Parse decParse " 1".data = Except.error e →
      e ∈ splitOnSpace " 1".data ∧ e ∉ opTokens ∧ decParse e = none) ∧
    (((∃ r, " 1".data = ' ' :: r) ∨ (∃ a, " 1".data = a ++ [' ']) ∨
        (∃ a b, " 1".data = a ++ ' ' :: ' ' :: b)) →
      ∃ e, Parse decParse " 1".data = Except.error e) ∧
    (∀ atoms, Parse decParse " 1".data = Except.ok atoms →
      parseTokens decParse (splitOnSpace " 1".data) = Except.ok atoms)) :=
  ⟨rfl, parse_error_characterization decParse " 1".data rfl⟩

theorem numbersOf_mem_cons (a : Atom ℚ) (rest : Stack ℚ) :
    ∀ q ∈ numbersOf rest, q ∈ numbersOf (a :: rest) := by
  intro q hq
  match a with
  | Atom.num p => simp [numbersOf, hq]
  | Atom.op o => simpa [numbersOf] using hq

theorem parseTokens_map_atomToStr (pf : Str → Option ℚ) (render : ℚ → Str) :
    ∀ (s : Stack ℚ), (∀ q ∈ numbersOf s, pf (render q) = some q) →
      (∀ q ∈ numbersOf s, render q ∉ opTokens) →
      parseTokens pf (s.map (atomToStr render)) = Except.ok s := by
  intro s
  induction s with
  | nil => intro _ _; rfl
  | cons a rest ih =>
    intro hround hclean
    have ha : parseAtom pf (atomToStr render a) = Except.ok a := by
      match a with
      | Atom.op Op.add => rfl
      | Atom.op Op.mul => rfl
      | Atom.op Op.div => rfl
      | Atom.op Op.sqrt => rfl
      | Atom.num q =>
        have h1 : render q ∉ opTokens := hclean q (by simp [numbersOf])
        have h2 : pf (render q) = some q := hround q (by simp [numbersOf])
        simp only [opTokens, List.mem_cons, List.mem_singleton, not_or] at h1
        simp only [parseAtom, atomToStr, if_neg h1.1, if_neg h1.2.1,
          if_neg h1.2.2.1, if_neg h1.2.2.2.1, h2]
    have hrest := ih (fun q hq => hround q (numbersOf_mem_cons a rest q hq))
      (fun q hq => hclean q (numbersOf_mem_cons a rest q hq))
    simp only [List.map_cons, parseTokens, ha, hrest]

theorem num_mem_numbersOf :
    ∀ (s : Stack ℚ) (q : ℚ), Atom.num q ∈ s → q ∈ numbersOf s := by
  intro s q h
  induction s with
  | nil => simp at h
  | cons b rest ih =>
    rcases List.mem_cons.mp h with hb | hmem
    · rw [← hb]
      simp [numbersOf]
    · exact numbersOf_mem_cons b rest q (ih hmem)

theorem atomToStr_no_space (render : ℚ → Str) (s : Stack ℚ)
    (hclean : ∀ q ∈ numbersOf s, ' ' ∉ render q) :
    ∀ tk ∈ s.map (atomToStr render), ' ' ∉ tk := by
  intro tk htk
  obtain ⟨a, ha, rfl⟩ := List.mem_map.mp htk
  match a with
  | Atom.op Op.add => simp [atomToStr]
  | Atom.op Op.mul => simp [atomToStr]
  | Atom.op Op.div => simp [atomToStr]
  | Atom.op Op.sqrt => simp [atomToStr]
  | Atom.num q => exact hclean q (num_mem_numbersOf s q ha)

/-- C6 (amended): for every nonempty stack of atoms whose literal
renderings round-trip through the number parser, contain no space and are
not operator symbols (as Go's `fmt.Sprint` output does under
`strconv.ParseFloat`), `Parse` applied to the stack's `String` rendering
succeeds with exactly the original stack, so in particular the parsed
stack evaluates to the same value. -/
theorem parse_string_roundtrip (pf : Str → Option ℚ) (render : ℚ → Str)
    (s : Stack ℚ) (hne : s ≠ [])
    (hround : ∀ q ∈ numbersOf s, pf (render q) = some q)
    (hclean : ∀ q ∈ numbersOf s, render q ∉ opTokens ∧ ' ' ∉ render q) :
    Parse pf (StackString render s) = Except.ok s ∧
    ∀ (f : ℚ → ℚ), (Parse pf (StackString render s)).map (EvaluateOpt f) =
      Except.ok (EvaluateOpt f s) := by
  have hsplit : splitOnSpace (joinSpace (s.map (atomToStr render))) =
      s.map (atomToStr render) := by
    refine split_join _ (by simpa using hne) ?_
    exact atomToStr_no_space render s (fun q hq => (hclean q hq).2)
  have hok : Parse pf (StackString render s) = Except.ok s := by
    rw [Parse_ok_iff, StackString, hsplit]
    exact parseTokens_map_atomToStr pf render s hround
      (fun q hq => (hclean q hq).1)
  exact ⟨hok, fun f => by rw [hok]; rfl⟩

/-- C6 counterexample: the empty stack renders to the empty string, whose
single empty token fails numeric parsing, so `Parse` applied to
`String(empty stack)` returns an error — the round-trip claim fails for
the empty stack of atoms. -/
theorem parse_string_roundtrip_counterexample :
    Parse decParse (StackString decRender ([] : Stack ℚ)) = Except.error [] :=
  rfl

/-- Witness for `parse_string_roundtrip` at the stack `1 2 +` with the
concrete rendering and parsing models. -/
theorem parse_string_roundtrip_witness :
    ([Atom.num (1 : ℚ), Atom.num 2, Atom.op Op.add] : Stack ℚ) ≠ [] ∧
    (∀ q ∈ numbersOf [Atom.num (1 : ℚ), Atom.num 2, Atom.op Op.add],
      decParse (decRender q) = some q) ∧
    (∀ q ∈ numbersOf [Atom.num (1 : ℚ), Atom.num 2, Atom.op Op.add],
      decRender q ∉ opTokens ∧ ' ' ∉ decRender q) ∧
    (Parse decParse
        (StackString decRender [Atom.num (1 : ℚ), Atom.num 2, Atom.op Op.add]) =
      Except.ok [Atom.num (1 : ℚ), Atom.num 2, Atom.op Op.add] ∧
    ∀ (f : ℚ → ℚ),
      (Parse decParse
          (StackString decRender
            [Atom.num (1 : ℚ), Atom.num 2, Atom.op Op.add])).map
          (EvaluateOpt f) =
        Except.ok
          (EvaluateOpt f [Atom.num (1 : ℚ), Atom.num 2, Atom.op Op.add])) := by
  have h1 : ([Atom.num (1 : ℚ), Atom.num 2, Atom.op Op.add] : Stack ℚ) ≠ [] := by
    decide
  have h2 : ∀ q ∈ numbersOf [Atom.num (1 : ℚ), Atom.num 2, Atom.op Op.add],
      decParse (decRender q) = some q := by
    decide
  have h3 : ∀ q ∈ numbersOf [Atom.num (1 : ℚ), Atom.num 2, Atom.op Op.add],
      decRender q ∉ opTokens ∧ ' ' ∉ decRender q := by
    decide
  exact ⟨h1, h2, h3,
    parse_string_roundtrip decParse decRender
      [Atom.num (1 : ℚ), Atom.num 2, Atom.op Op.add] h1 h2 h3⟩

end PiSearch
